import Mathlib

set_option maxHeartbeats 1000000

/- Verification of the ARM NEON signal-processing kernels of
   src/obj_detection_util.h against their natural-language specification.

   Embedding conventions: 32-bit float arithmetic is modelled by exact
   rational arithmetic (rounding is not modelled); a float pointer with a
   length is modelled by a function from Nat to Rat together with a count;
   a caller-owned output buffer is modelled by a List that the kernel
   updates through List.set, so indices the kernel never stores to keep
   their previous contents.  A separate value domain FV with signed
   infinities and a NaN value models the IEEE special values for the one
   claim that is about them.  Every loop is translated with its exact
   bounds, including the bit-trick lane counts (count and NOT 3 becomes
   count - count % 4) and the dead branches of the source. -/

/-- Views a finite list as a pointer-style array, reading 0 out of range. -/
def ofList (l : List ℚ) : ℕ → ℚ := fun i => l.getD i 0

/-- Reading a buffer at the index just stored to returns the stored value. -/
theorem getD_set_eq {α : Type} (l : List α) (i : ℕ) (x d : α) (h : i < l.length) :
    (l.set i x).getD i d = x := by
  rw [List.getD_eq_getElem (l.set i x) d (by simpa using h), List.getElem_set_self]

/-- Reading a buffer at an index other than the one stored to is unchanged. -/
theorem getD_set_ne {α : Type} (l : List α) (i j : ℕ) (x d : α) (h : i ≠ j) :
    (l.set i x).getD j d = l.getD j d := by
  by_cases hj : j < l.length
  · rw [List.getD_eq_getElem (l.set i x) d (by simpa using hj),
      List.getD_eq_getElem l d hj, List.getElem_set_ne h]
  · rw [List.getD_eq_default _ _ (by simpa using Nat.le_of_not_lt hj),
      List.getD_eq_default _ _ (Nat.le_of_not_lt hj)]

/-- Models one vst1q_f32 store of four computed lane values at base index i. -/
def write4 {α : Type} (f : ℕ → α) (out : List α) (i : ℕ) : List α :=
  (((out.set i (f i)).set (i+1) (f (i+1))).set (i+2) (f (i+2))).set (i+3) (f (i+3))

/-- Models a lane loop storing f at every index of g consecutive 4-groups. -/
def groups_write {α : Type} (f : ℕ → α) (out : List α) (i : ℕ) : ℕ → List α
  | 0 => out
  | g+1 => groups_write f (write4 f out i) (i+4) g

/-- Models a scalar loop storing f at n consecutive indices from i. -/
def tail_write {α : Type} (f : ℕ → α) (out : List α) (i : ℕ) : ℕ → List α
  | 0 => out
  | n+1 => tail_write f (out.set i (f i)) (i+1) n

theorem length_write4 {α : Type} (f : ℕ → α) (out : List α) (i : ℕ) :
    (write4 f out i).length = out.length := by
  simp [write4]

theorem length_groups_write {α : Type} (f : ℕ → α) :
    ∀ (g : ℕ) (out : List α) (i : ℕ), (groups_write f out i g).length = out.length := by
  intro g
  induction g with
  | zero => intro out i; rfl
  | succ g ih =>
    intro out i
    show (groups_write f (write4 f out i) (i+4) g).length = out.length
    rw [ih (write4 f out i) (i+4), length_write4]

theorem length_tail_write {α : Type} (f : ℕ → α) :
    ∀ (n : ℕ) (out : List α) (i : ℕ), (tail_write f out i n).length = out.length := by
  intro n
  induction n with
  | zero => intro out i; rfl
  | succ n ih =>
    intro out i
    show (tail_write f (out.set i (f i)) (i+1) n).length = out.length
    rw [ih (out.set i (f i)) (i+1), List.length_set]

theorem getD_write4 {α : Type} (f : ℕ → α) (out : List α) (i j : ℕ) (d : α) :
    (write4 f out i).getD j d =
      if i ≤ j ∧ j < i + 4 ∧ j < out.length then f j else out.getD j d := by
  by_cases hj : j < out.length
  · by_cases h0 : j = i
    · subst h0
      unfold write4
      rw [getD_set_ne _ _ _ _ _ (by omega), getD_set_ne _ _ _ _ _ (by omega),
        getD_set_ne _ _ _ _ _ (by omega), getD_set_eq _ _ _ _ (by simpa using hj),
        if_pos ⟨le_refl _, by omega, hj⟩]
    · by_cases h1 : j = i + 1
      · subst h1
        unfold write4
        rw [getD_set_ne _ _ _ _ _ (by omega), getD_set_ne _ _ _ _ _ (by omega),
          getD_set_eq _ _ _ _ (by simpa using hj), if_pos ⟨by omega, by omega, hj⟩]
      · by_cases h2 : j = i + 2
        · subst h2
          unfold write4
          rw [getD_set_ne _ _ _ _ _ (by omega),
            getD_set_eq _ _ _ _ (by simpa using hj), if_pos ⟨by omega, by omega, hj⟩]
        · by_cases h3 : j = i + 3
          · subst h3
            unfold write4
            rw [getD_set_eq _ _ _ _ (by simpa using hj), if_pos ⟨by omega, by omega, hj⟩]
          · unfold write4
            rw [getD_set_ne _ _ _ _ _ (by omega), getD_set_ne _ _ _ _ _ (by omega),
              getD_set_ne _ _ _ _ _ (by omega), getD_set_ne _ _ _ _ _ (by omega),
              if_neg (by omega)]
  · unfold write4
    rw [if_neg (by omega),
      List.getD_eq_default _ _ (by simpa using Nat.le_of_not_lt hj),
      List.getD_eq_default _ _ (Nat.le_of_not_lt hj)]

theorem getD_groups_write {α : Type} (f : ℕ → α) (d : α) :
    ∀ (g : ℕ) (out : List α) (i j : ℕ),
      (groups_write f out i g).getD j d =
        if i ≤ j ∧ j < i + 4 * g ∧ j < out.length then f j else out.getD j d := by
  intro g
  induction g with
  | zero =>
    intro out i j
    rw [if_neg (by omega)]
    rfl
  | succ g ih =>
    intro out i j
    show (groups_write f (write4 f out i) (i+4) g).getD j d = _
    rw [ih (write4 f out i) (i+4) j, length_write4, getD_write4]
    by_cases h1 : i + 4 ≤ j ∧ j < i + 4 + 4 * g ∧ j < out.length
    · rw [if_pos h1, if_pos (by omega)]
    · rw [if_neg h1]
      by_cases h2 : i ≤ j ∧ j < i + 4 ∧ j < out.length
      · rw [if_pos h2, if_pos (by omega)]
      · rw [if_neg h2, if_neg (by omega)]

theorem getD_tail_write {α : Type} (f : ℕ → α) (d : α) :
    ∀ (n : ℕ) (out : List α) (i j : ℕ),
      (tail_write f out i n).getD j d =
        if i ≤ j ∧ j < i + n ∧ j < out.length then f j else out.getD j d := by
  intro n
  induction n with
  | zero =>
    intro out i j
    rw [if_neg (by omega)]
    rfl
  | succ n ih =>
    intro out i j
    show (tail_write f (out.set i (f i)) (i+1) n).getD j d = _
    rw [ih (out.set i (f i)) (i+1) j, List.length_set]
    by_cases h1 : i + 1 ≤ j ∧ j < i + 1 + n ∧ j < out.length
    · rw [if_pos h1, if_pos (by omega)]
    · rw [if_neg h1]
      by_cases h0 : j = i
      · subst h0
        by_cases hl : j < out.length
        · rw [getD_set_eq _ _ _ _ hl, if_pos ⟨le_refl _, by omega, hl⟩]
        · rw [if_neg (by omega),
            List.getD_eq_default _ _ (by simpa using Nat.le_of_not_lt hl),
            List.getD_eq_default _ _ (Nat.le_of_not_lt hl)]
      · rw [getD_set_ne _ _ _ _ _ (by omega), if_neg (by omega)]

/-- Shallow embedding of speed (obj_detection_util.h, lines 103 to 119).
    The lane path stores diff times the broadcast reciprocal of time_delta
    (vdupq_n_f32 of 1.0f / time_delta); the scalar tail stores diff divided
    by time_delta.  simd_count = count AND NOT 3 is count - count % 4. -/
def speed (positions_prev positions_curr : ℕ → ℚ) (out : List ℚ)
    (count : ℕ) (time_delta : ℚ) : List ℚ :=
  tail_write (fun i => (positions_curr i - positions_prev i) / time_delta)
    (groups_write (fun i => (positions_curr i - positions_prev i) * (1 / time_delta))
      out 0 ((count - count % 4) / 4))
    (count - count % 4) (count - (count - count % 4))

/-- C3: for every pair of position arrays of length n and every nonzero
    time_delta, speed stores at every index i < n the value
    (positions_curr i - positions_prev i) * (1 / time_delta); over the exact
    arithmetic of the model the divide-by-time_delta tail agrees with the
    multiply-by-reciprocal lane path at every index. -/
theorem speed_spec (positions_prev positions_curr : ℕ → ℚ) (out : List ℚ)
    (count : ℕ) (time_delta : ℚ) (hdt : time_delta ≠ 0) (hlen : count ≤ out.length) :
    ∀ i, i < count →
      (speed positions_prev positions_curr out count time_delta).getD i 0 =
        (positions_curr i - positions_prev i) * (1 / time_delta) := by
  intro i hi
  unfold speed
  rw [getD_tail_write, length_groups_write, getD_groups_write]
  by_cases hg : i < count - count % 4
  · rw [if_neg (by omega), if_pos ⟨Nat.zero_le i, by omega, by omega⟩]
  · rw [if_pos ⟨by omega, by omega, by omega⟩]
    rw [div_eq_mul_inv, one_div]

/-- Witness for C3 at the position data of the demonstration driver, read
    back at tail index 4 (count 6, so index 4 lies past the last full lane). -/
theorem speed_spec_witness :
    (speed (ofList [0,10,25,45,70,100]) (ofList [5,20,40,65,95,130])
        (List.replicate 6 0) 6 (1/10)).getD 4 0 =
      (ofList [5,20,40,65,95,130] 4 - ofList [0,10,25,45,70,100] 4) * (1 / (1/10)) :=
  speed_spec (ofList [0,10,25,45,70,100]) (ofList [5,20,40,65,95,130])
    (List.replicate 6 0) 6 (1/10) (by norm_num) (by simp) 4 (by norm_num)

/-- Models one lane of vcgtq_f32 against the broadcast threshold: the lane
    of the comparison mask is all ones, 4294967295, when the sample is
    strictly greater than the threshold, else 0. -/
def thrMask (x thr : ℚ) : ℕ := if x > thr then 4294967295 else 0

/-- Models the narrowing chain of threshold_detection on one lane: vmovn_u32
    keeps the low 16 bits of the mask lane, vmovn_u16 keeps the low 8 bits,
    and the C conditional turns any nonzero byte into 1. -/
def thr_bit (sensor_data : ℕ → ℚ) (threshold : ℚ) (i : ℕ) : ℕ :=
  if (thrMask (sensor_data i) threshold % 65536) % 256 ≠ 0 then 1 else 0

/-- Shallow embedding of threshold_detection (lines 266 to 286): the lane
    path stores the narrowed comparison-mask bytes of each full 4-group, the
    scalar tail stores 1 exactly when the sample is strictly greater. -/
def threshold_detection (sensor_data : ℕ → ℚ) (out : List ℕ)
    (count : ℕ) (threshold : ℚ) : List ℕ :=
  tail_write (fun i => if sensor_data i > threshold then 1 else 0)
    (groups_write (thr_bit sensor_data threshold) out 0 ((count - count % 4) / 4))
    (count - count % 4) (count - (count - count % 4))

theorem thr_bit_eq (sensor_data : ℕ → ℚ) (threshold : ℚ) (i : ℕ) :
    thr_bit sensor_data threshold i = if threshold < sensor_data i then 1 else 0 := by
  unfold thr_bit thrMask
  by_cases h : threshold < sensor_data i <;> simp [h, gt_iff_lt]

/-- C6: for every input array, threshold and index i below count,
    threshold_detection stores 1 at i exactly when the sample is strictly
    greater than the threshold, and stores 0 otherwise (so equality with the
    threshold gives 0), through the lane mask path and the scalar tail alike. -/
theorem threshold_detection_spec (sensor_data : ℕ → ℚ) (out : List ℕ)
    (count : ℕ) (threshold : ℚ) (hlen : count ≤ out.length) :
    ∀ i, i < count →
      (((threshold_detection sensor_data out count threshold).getD i 0 = 1) ↔
          threshold < sensor_data i) ∧
      (((threshold_detection sensor_data out count threshold).getD i 0 = 0) ↔
          ¬ threshold < sensor_data i) := by
  intro i hi
  have hv : (threshold_detection sensor_data out count threshold).getD i 0 =
      if threshold < sensor_data i then 1 else 0 := by
    unfold threshold_detection
    rw [getD_tail_write, length_groups_write, getD_groups_write]
    by_cases hg : i < count - count % 4
    · rw [if_neg (by omega), if_pos ⟨Nat.zero_le i, by omega, by omega⟩, thr_bit_eq]
    · rw [if_pos ⟨by omega, by omega, by omega⟩]
  rw [hv]
  by_cases h : threshold < sensor_data i <;> simp [h]

/-- Witness for C6 at the spec example data [1,5,2,6] with threshold 3,
    read back at index 1. -/
theorem threshold_detection_spec_witness :
    (threshold_detection (ofList [1,5,2,6]) (List.replicate 4 0) 4 3).getD 1 0 = 1 :=
  ((threshold_detection_spec (ofList [1,5,2,6]) (List.replicate 4 0) 4 3 (by simp) 1
      (by norm_num)).1).mpr (by norm_num [ofList])

/-- Models the sequential loop of exp_moving_average from index i with n
    iterations left: each iteration stores
    alpha * input i + (1 - alpha) * output (i - 1), reading back the output
    element stored by the previous iteration. -/
def ema_loop (input : ℕ → ℚ) (alpha : ℚ) (out : List ℚ) (i : ℕ) : ℕ → List ℚ
  | 0 => out
  | n+1 =>
    ema_loop input alpha
      (out.set i (alpha * input i + (1 - alpha) * out.getD (i-1) 0)) (i+1) n

/-- Shallow embedding of exp_moving_average (lines 246 to 257).  The
    broadcast lane constants alpha_vec and one_minus_alpha of the source are
    never read, so they have no observable counterpart here; count = 0
    returns before any store, else output 0 is seeded from input 0 and the
    sequential loop covers i = 1 .. count - 1.  alpha is not validated. -/
def exp_moving_average (input : ℕ → ℚ) (out : List ℚ) (count : ℕ) (alpha : ℚ) : List ℚ :=
  if count = 0 then out
  else ema_loop input alpha (out.set 0 (input 0)) 1 (count - 1)

theorem ema_loop_spec (input : ℕ → ℚ) (alpha : ℚ) :
    ∀ (n : ℕ) (out : List ℚ) (i : ℕ), 1 ≤ i → i + n ≤ out.length →
      (ema_loop input alpha out i n).length = out.length ∧
      (∀ j, j < i → (ema_loop input alpha out i n).getD j 0 = out.getD j 0) ∧
      (∀ j, i ≤ j → j < i + n →
        (ema_loop input alpha out i n).getD j 0 =
          alpha * input j + (1 - alpha) * (ema_loop input alpha out i n).getD (j-1) 0) := by
  intro n
  induction n with
  | zero =>
    intro out i hi hlen
    exact ⟨rfl, fun j hj => rfl, fun j hj1 hj2 => absurd hj2 (by omega)⟩
  | succ n ih =>
    intro out i hi hlen
    have heq : ema_loop input alpha out i (n+1) =
        ema_loop input alpha
          (out.set i (alpha * input i + (1 - alpha) * out.getD (i-1) 0)) (i+1) n := rfl
    rw [heq]
    obtain ⟨hL, hpre, hrec⟩ :=
      ih (out.set i (alpha * input i + (1 - alpha) * out.getD (i-1) 0)) (i+1)
        (by omega) (by rw [List.length_set]; omega)
    refine ⟨by rw [hL, List.length_set], ?_, ?_⟩
    · intro j hj
      rw [hpre j (by omega), getD_set_ne _ _ _ _ _ (by omega)]
    · intro j hj1 hj2
      by_cases hji : j = i
      · subst hji
        rw [hpre j (by omega), getD_set_eq _ _ _ _ (by omega),
          hpre (j-1) (by omega), getD_set_ne _ _ _ _ _ (by omega)]
      · rw [hrec j (by omega) (by omega)]

/-- C8: for every input array with count at least 1 and every alpha, the
    output at 0 equals input 0 and every later output element satisfies the
    strictly sequential recurrence
    output i = alpha * input i + (1 - alpha) * output (i - 1); count = 0 is
    a no-op, and alpha is unconstrained (not validated). -/
theorem exp_moving_average_spec (input : ℕ → ℚ) (out : List ℚ) (count : ℕ) (alpha : ℚ)
    (hlen : count ≤ out.length) :
    (count = 0 → exp_moving_average input out count alpha = out) ∧
    (0 < count →
      (exp_moving_average input out count alpha).getD 0 0 = input 0 ∧
      ∀ i, 1 ≤ i → i < count →
        (exp_moving_average input out count alpha).getD i 0 =
          alpha * input i +
            (1 - alpha) * (exp_moving_average input out count alpha).getD (i-1) 0) := by
  constructor
  · intro h
    simp [exp_moving_average, h]
  · intro hpos
    have hne : count ≠ 0 := by omega
    have heq : exp_moving_average input out count alpha =
        ema_loop input alpha (out.set 0 (input 0)) 1 (count - 1) := by
      unfold exp_moving_average
      rw [if_neg hne]
    obtain ⟨hL, hpre, hrec⟩ :=
      ema_loop_spec input alpha (count - 1) (out.set 0 (input 0)) 1 (le_refl 1)
        (by rw [List.length_set]; omega)
    constructor
    · rw [heq, hpre 0 (by omega), getD_set_eq _ _ _ _ (by omega)]
    · intro i h1 h2
      rw [heq, hrec i h1 (by omega)]

/-- Witness for C8 at input [4,2] with alpha one half. -/
theorem exp_moving_average_spec_witness :
    (exp_moving_average (ofList [4,2]) [0,0] 2 (1/2)).getD 0 0 = ofList [4,2] 0 :=
  ((exp_moving_average_spec (ofList [4,2]) [0,0] 2 (1/2) (by simp)).2 (by norm_num)).1

/-- Models a float32x4 accumulator updated once per full lane group: lane k
    of the quadruple accumulates the values of t at indices congruent to k,
    as vfmaq_f32 or vaddq_f32 does in the reduction loops of the source. -/
def lanes_acc (t : ℕ → ℚ) (s : ℚ × ℚ × ℚ × ℚ) (i : ℕ) : ℕ → ℚ × ℚ × ℚ × ℚ
  | 0 => s
  | g+1 => lanes_acc t (s.1 + t i, s.2.1 + t (i+1), s.2.2.1 + t (i+2), s.2.2.2 + t (i+3)) (i+4) g

/-- Models a scalar accumulation loop adding t over n indices from i. -/
def scalar_tail_acc (t : ℕ → ℚ) (r : ℚ) (i : ℕ) : ℕ → ℚ
  | 0 => r
  | n+1 => scalar_tail_acc t (r + t i) (i+1) n

/-- Models the scalar tail loop of weighted_average, which continues both
    running accumulators (weighted sum, weight sum) in a single pass. -/
def wavg_tail (values weights : ℕ → ℚ) (acc : ℚ × ℚ) (i : ℕ) : ℕ → ℚ × ℚ
  | 0 => acc
  | n+1 => wavg_tail values weights (acc.1 + values i * weights i, acc.2 + weights i) (i+1) n

theorem sum_range_split (f : ℕ → ℚ) (a b : ℕ) :
    (∑ m ∈ Finset.range a, f m) + (∑ m ∈ Finset.range b, f (a + m)) =
      ∑ m ∈ Finset.range (a + b), f m :=
  (Finset.sum_range_add f a b).symm

/-- Horizontal reduction of a lane accumulator, in the exact shape of the
    source (low half plus high half, then pairwise add), equals the plain
    sum of the accumulated terms. -/
theorem lanes_acc_sum (t : ℕ → ℚ) :
    ∀ (g : ℕ) (s : ℚ × ℚ × ℚ × ℚ) (i : ℕ),
      ((lanes_acc t s i g).1 + (lanes_acc t s i g).2.2.1) +
          ((lanes_acc t s i g).2.1 + (lanes_acc t s i g).2.2.2) =
        ((s.1 + s.2.2.1) + (s.2.1 + s.2.2.2)) + ∑ m ∈ Finset.range (4 * g), t (i + m) := by
  intro g
  induction g with
  | zero =>
    intro s i
    simp [lanes_acc]
  | succ g ih =>
    intro s i
    have hstep : lanes_acc t s i (g+1) =
        lanes_acc t (s.1 + t i, s.2.1 + t (i+1), s.2.2.1 + t (i+2), s.2.2.2 + t (i+3)) (i+4) g := rfl
    rw [hstep, ih (s.1 + t i, s.2.1 + t (i+1), s.2.2.1 + t (i+2), s.2.2.2 + t (i+3)) (i+4)]
    have h4 : 4 * (g+1) = 4 + 4 * g := by ring
    rw [h4, Finset.sum_range_add (fun m => t (i + m)) 4 (4 * g)]
    have hsh : ∑ m ∈ Finset.range (4 * g), t (i + (4 + m)) =
        ∑ m ∈ Finset.range (4 * g), t (i + 4 + m) :=
      Finset.sum_congr rfl (fun m _ => by rw [show i + (4 + m) = i + 4 + m from by omega])
    rw [hsh]
    simp only [Finset.sum_range_succ, Finset.sum_range_zero]
    ring_nf
    linarith

theorem scalar_tail_acc_spec (t : ℕ → ℚ) :
    ∀ (n : ℕ) (r : ℚ) (i : ℕ),
      scalar_tail_acc t r i n = r + ∑ m ∈ Finset.range n, t (i + m) := by
  intro n
  induction n with
  | zero =>
    intro r i
    simp [scalar_tail_acc]
  | succ n ih =>
    intro r i
    have hstep : scalar_tail_acc t r i (n+1) = scalar_tail_acc t (r + t i) (i+1) n := rfl
    rw [hstep, ih (r + t i) (i+1), Finset.sum_range_succ']
    have hsh : ∑ m ∈ Finset.range n, t (i + (m + 1)) =
        ∑ m ∈ Finset.range n, t (i + 1 + m) :=
      Finset.sum_congr rfl (fun m _ => by rw [show i + (m + 1) = i + 1 + m from by omega])
    rw [← hsh, Nat.add_zero]
    ring

theorem wavg_tail_spec (values weights : ℕ → ℚ) :
    ∀ (n : ℕ) (acc : ℚ × ℚ) (i : ℕ),
      (wavg_tail values weights acc i n).1 =
          acc.1 + ∑ m ∈ Finset.range n, values (i + m) * weights (i + m) ∧
      (wavg_tail values weights acc i n).2 =
          acc.2 + ∑ m ∈ Finset.range n, weights (i + m) := by
  intro n
  induction n with
  | zero =>
    intro acc i
    constructor <;> simp [wavg_tail]
  | succ n ih =>
    intro acc i
    have hstep : wavg_tail values weights acc i (n+1) =
        wavg_tail values weights (acc.1 + values i * weights i, acc.2 + weights i) (i+1) n := rfl
    obtain ⟨h1, h2⟩ := ih (acc.1 + values i * weights i, acc.2 + weights i) (i+1)
    constructor
    · rw [hstep, h1, Finset.sum_range_succ']
      have hsh : ∑ m ∈ Finset.range n, values (i + (m + 1)) * weights (i + (m + 1)) =
          ∑ m ∈ Finset.range n, values (i + 1 + m) * weights (i + 1 + m) :=
        Finset.sum_congr rfl (fun m _ => by rw [show i + (m + 1) = i + 1 + m from by omega])
      rw [← hsh, Nat.add_zero]
      ring
    · rw [hstep, h2, Finset.sum_range_succ']
      have hsh : ∑ m ∈ Finset.range n, weights (i + (m + 1)) =
          ∑ m ∈ Finset.range n, weights (i + 1 + m) :=
        Finset.sum_congr rfl (fun m _ => by rw [show i + (m + 1) = i + 1 + m from by omega])
      rw [← hsh, Nat.add_zero]
      ring

/-- Accumulator pair of weighted_average (lines 30 to 53): the two vector
    accumulators of the single lane loop are tracked by two lanes_acc
    passes over the same index range, each horizontally reduced as in the
    source, then the scalar tail continues both running scalars. -/
def wavg_sums (values weights : ℕ → ℚ) (count : ℕ) : ℚ × ℚ :=
  wavg_tail values weights
    (((lanes_acc (fun m => values m * weights m) (0,0,0,0) 0 ((count - count % 4) / 4)).1 +
        (lanes_acc (fun m => values m * weights m) (0,0,0,0) 0 ((count - count % 4) / 4)).2.2.1) +
      ((lanes_acc (fun m => values m * weights m) (0,0,0,0) 0 ((count - count % 4) / 4)).2.1 +
        (lanes_acc (fun m => values m * weights m) (0,0,0,0) 0 ((count - count % 4) / 4)).2.2.2),
     ((lanes_acc weights (0,0,0,0) 0 ((count - count % 4) / 4)).1 +
        (lanes_acc weights (0,0,0,0) 0 ((count - count % 4) / 4)).2.2.1) +
      ((lanes_acc weights (0,0,0,0) 0 ((count - count % 4) / 4)).2.1 +
        (lanes_acc weights (0,0,0,0) 0 ((count - count % 4) / 4)).2.2.2))
    (count - count % 4) (count - (count - count % 4))

/-- Shallow embedding of weighted_average (lines 30 to 56), including the
    final guard weight_sum greater than 0 with fallback 0. -/
def weighted_average (values weights : ℕ → ℚ) (count : ℕ) : ℚ :=
  if (wavg_sums values weights count).2 > 0 then
    (wavg_sums values weights count).1 / (wavg_sums values weights count).2
  else 0

theorem wavg_sums_eq (values weights : ℕ → ℚ) (count : ℕ) :
    wavg_sums values weights count =
      (∑ m ∈ Finset.range count, values m * weights m,
       ∑ m ∈ Finset.range count, weights m) := by
  obtain ⟨h1, h2⟩ := wavg_tail_spec values weights (count - (count - count % 4))
    (((lanes_acc (fun m => values m * weights m) (0,0,0,0) 0 ((count - count % 4) / 4)).1 +
        (lanes_acc (fun m => values m * weights m) (0,0,0,0) 0 ((count - count % 4) / 4)).2.2.1) +
      ((lanes_acc (fun m => values m * weights m) (0,0,0,0) 0 ((count - count % 4) / 4)).2.1 +
        (lanes_acc (fun m => values m * weights m) (0,0,0,0) 0 ((count - count % 4) / 4)).2.2.2),
     ((lanes_acc weights (0,0,0,0) 0 ((count - count % 4) / 4)).1 +
        (lanes_acc weights (0,0,0,0) 0 ((count - count % 4) / 4)).2.2.1) +
      ((lanes_acc weights (0,0,0,0) 0 ((count - count % 4) / 4)).2.1 +
        (lanes_acc weights (0,0,0,0) 0 ((count - count % 4) / 4)).2.2.2))
    (count - count % 4)
  refine Prod.ext ?_ ?_
  · rw [show (∑ m ∈ Finset.range count, values m * weights m,
        ∑ m ∈ Finset.range count, weights m).1 = ∑ m ∈ Finset.range count, values m * weights m
        from rfl]
    rw [wavg_sums, h1,
      lanes_acc_sum (fun m => values m * weights m) ((count - count % 4) / 4) (0,0,0,0) 0]
    simp only [Nat.zero_add]
    rw [show 4 * ((count - count % 4) / 4) = count - count % 4 from by omega]
    norm_num
    rw [sum_range_split (fun m => values m * weights m) (count - count % 4)
      (count - (count - count % 4))]
    rw [show (count - count % 4) + (count - (count - count % 4)) = count from by omega]
  · rw [show (∑ m ∈ Finset.range count, values m * weights m,
        ∑ m ∈ Finset.range count, weights m).2 = ∑ m ∈ Finset.range count, weights m from rfl]
    rw [wavg_sums, h2, lanes_acc_sum weights ((count - count % 4) / 4) (0,0,0,0) 0]
    simp only [Nat.zero_add]
    rw [show 4 * ((count - count % 4) / 4) = count - count % 4 from by omega]
    norm_num
    rw [sum_range_split weights (count - count % 4) (count - (count - count % 4))]
    rw [show (count - count % 4) + (count - (count - count % 4)) = count from by omega]

/-- C5: weighted_average returns 0 whenever the total of the weights is at
    most 0 (explicit fallback), returns 0 when count = 0, and otherwise
    returns the weighted sum divided by the weight total. -/
theorem weighted_average_spec (values weights : ℕ → ℚ) (count : ℕ) :
    ((∑ m ∈ Finset.range count, weights m) ≤ 0 → weighted_average values weights count = 0) ∧
    (count = 0 → weighted_average values weights count = 0) ∧
    (0 < (∑ m ∈ Finset.range count, weights m) →
      weighted_average values weights count =
        (∑ m ∈ Finset.range count, values m * weights m) /
          (∑ m ∈ Finset.range count, weights m)) := by
  have he := wavg_sums_eq values weights count
  unfold weighted_average
  rw [he]
  refine ⟨?_, ?_, ?_⟩
  · intro h
    rw [if_neg (not_lt.mpr h)]
  · intro h
    subst h
    simp
  · intro h
    rw [if_pos h]

/-- Witness for C5 at three values with all weights equal to minus one. -/
theorem weighted_average_spec_witness :
    weighted_average (ofList [1,2,3]) (fun _ => (-1 : ℚ)) 3 = 0 :=
  (weighted_average_spec (ofList [1,2,3]) (fun _ => (-1 : ℚ)) 3).1
    (by norm_num [Finset.sum_range_succ, Finset.sum_range_zero])

/-- Shallow embedding of cross_correlation (lines 219 to 237): lane loop
    with fused multiply-add, horizontal reduction, scalar tail. -/
def cross_correlation (signal1 signal2 : ℕ → ℚ) (length : ℕ) : ℚ :=
  scalar_tail_acc (fun m => signal1 m * signal2 m)
    (((lanes_acc (fun m => signal1 m * signal2 m) (0,0,0,0) 0 ((length - length % 4) / 4)).1 +
        (lanes_acc (fun m => signal1 m * signal2 m) (0,0,0,0) 0 ((length - length % 4) / 4)).2.2.1) +
      ((lanes_acc (fun m => signal1 m * signal2 m) (0,0,0,0) 0 ((length - length % 4) / 4)).2.1 +
        (lanes_acc (fun m => signal1 m * signal2 m) (0,0,0,0) 0 ((length - length % 4) / 4)).2.2.2))
    (length - length % 4) (length - (length - length % 4))

/-- Models the in-register scan of cumulative_sum on one lane group
    (lines 77 to 82).  With result = (a, b, c, d), the source adds three
    shifted copies of result in sequence: vextq_f32(0, result, 3) is
    (0, r0, r1, r2), then vextq_f32(0, result, 2) is (0, 0, r0, r1), then
    vextq_f32(0, result, 1) is (0, 0, 0, r0); each step adds lane by lane. -/
def scan4 (a b c d : ℚ) : ℚ × ℚ × ℚ × ℚ :=
  let s1 : ℚ × ℚ × ℚ × ℚ := (a + 0, b + a, c + b, d + c)
  let s2 : ℚ × ℚ × ℚ × ℚ := (s1.1 + 0, s1.2.1 + 0, s1.2.2.1 + s1.1, s1.2.2.2 + s1.2.1)
  (s2.1 + 0, s2.2.1 + 0, s2.2.2.1 + 0, s2.2.2.2 + s2.1)

/-- Models the scalar remainder branch of cumulative_sum (lines 86 to 90):
    out j = out (j-1) + input j for the n indices from j, then break. -/
def cumsum_rest (input : ℕ → ℚ) (out : List ℚ) (j : ℕ) : ℕ → List ℚ
  | 0 => out
  | n+1 => cumsum_rest input (out.set j (out.getD (j-1) 0 + input j)) (j+1) n

/-- Models the main loop of cumulative_sum (lines 71 to 92): fuel is the
    exact number of iterations of for (i = 1; i < simd_count; i += 4); each
    iteration either stores one scanned group plus the broadcast carry
    out (i-1), or, when fewer than 4 elements remain, runs the scalar
    remainder and breaks. -/
def cumsum_loop (input : ℕ → ℚ) (count : ℕ) (out : List ℚ) (i : ℕ) : ℕ → List ℚ
  | 0 => out
  | fuel+1 =>
    if 4 ≤ count - i then
      cumsum_loop input count
        ((((out.set i
              ((scan4 (input i) (input (i+1)) (input (i+2)) (input (i+3))).1 +
                out.getD (i-1) 0)).set (i+1)
              ((scan4 (input i) (input (i+1)) (input (i+2)) (input (i+3))).2.1 +
                out.getD (i-1) 0)).set (i+2)
              ((scan4 (input i) (input (i+1)) (input (i+2)) (input (i+3))).2.2.1 +
                out.getD (i-1) 0)).set (i+3)
              ((scan4 (input i) (input (i+1)) (input (i+2)) (input (i+3))).2.2.2 +
                out.getD (i-1) 0))
        (i+4) fuel
    else
      cumsum_rest input out i (count - i)

/-- Shallow embedding of cumulative_sum (lines 64 to 93): count = 0 returns
    at once; otherwise out 0 is seeded from input 0 and the loop starts at
    i = 1 with simd_count = ((count - 1) AND NOT 3) + 1, so its iteration
    count is (simd_count - 1) / 4 = ((count - 1) - (count - 1) % 4) / 4. -/
def cumulative_sum (input : ℕ → ℚ) (count : ℕ) (out : List ℚ) : List ℚ :=
  if count = 0 then out
  else
    cumsum_loop input count (out.set 0 (input 0)) 1
      (((count - 1) - (count - 1) % 4) / 4)

/-- C1 (falsified): evaluating cumulative_sum at the exact example of the
    spec, input [1,...,10] with a zero-initialised 10-element output
    buffer, does not produce the inclusive prefix sums
    [1,3,6,10,15,21,28,36,45,55]: the third in-register shift-and-add step
    adds the first element of each lane group into lane 3 a second time
    (output 4 becomes 17, not 15, and the error is carried forward), and
    the scalar remainder branch is unreachable, so output 9 keeps its
    prior buffer value 0 instead of receiving 55. -/
theorem cumulative_sum_bug :
    cumulative_sum (ofList [1,2,3,4,5,6,7,8,9,10]) 10 (List.replicate 10 0) =
      [1, 3, 6, 10, 17, 23, 30, 38, 53, 0] ∧
    (cumulative_sum (ofList [1,2,3,4,5,6,7,8,9,10]) 10 (List.replicate 10 0)).getD 4 0 ≠ 15 ∧
    (cumulative_sum (ofList [1,2,3,4,5,6,7,8,9,10]) 10 (List.replicate 10 0)).getD 9 0 ≠ 55 := by
  have h : cumulative_sum (ofList [1,2,3,4,5,6,7,8,9,10]) 10 (List.replicate 10 0) =
      [1, 3, 6, 10, 17, 23, 30, 38, 53, 0] := by
    norm_num [cumulative_sum, cumsum_loop, cumsum_rest, scan4, ofList, List.replicate]
  refine ⟨h, ?_, ?_⟩ <;> rw [h] <;>
    norm_num [List.getD_cons_succ, List.getD_cons_zero]

/-- Models one output element of moving_average_filter (lines 135 to 156):
    window start, window length, lane sums over the full 4-groups of the
    window, horizontal reduction, scalar remainder of the window, and the
    final division by the actual window length.  The broadcast constants
    scale and scale_vec of the source are never read and have no
    counterpart here. -/
def maf_out (input : ℕ → ℚ) (window_size : ℕ) (i : ℕ) : ℚ :=
  scalar_tail_acc input
    (((lanes_acc input (0,0,0,0) (if window_size ≤ i then i - window_size + 1 else 0)
          (((i + 1 - (if window_size ≤ i then i - window_size + 1 else 0)) -
              (i + 1 - (if window_size ≤ i then i - window_size + 1 else 0)) % 4) / 4)).1 +
        (lanes_acc input (0,0,0,0) (if window_size ≤ i then i - window_size + 1 else 0)
          (((i + 1 - (if window_size ≤ i then i - window_size + 1 else 0)) -
              (i + 1 - (if window_size ≤ i then i - window_size + 1 else 0)) % 4) / 4)).2.2.1) +
      ((lanes_acc input (0,0,0,0) (if window_size ≤ i then i - window_size + 1 else 0)
          (((i + 1 - (if window_size ≤ i then i - window_size + 1 else 0)) -
              (i + 1 - (if window_size ≤ i then i - window_size + 1 else 0)) % 4) / 4)).2.1 +
        (lanes_acc input (0,0,0,0) (if window_size ≤ i then i - window_size + 1 else 0)
          (((i + 1 - (if window_size ≤ i then i - window_size + 1 else 0)) -
              (i + 1 - (if window_size ≤ i then i - window_size + 1 else 0)) % 4) / 4)).2.2.2))
    ((if window_size ≤ i then i - window_size + 1 else 0) +
      ((i + 1 - (if window_size ≤ i then i - window_size + 1 else 0)) -
        (i + 1 - (if window_size ≤ i then i - window_size + 1 else 0)) % 4))
    ((i + 1 - (if window_size ≤ i then i - window_size + 1 else 0)) % 4) /
  ((i + 1 - (if window_size ≤ i then i - window_size + 1 else 0)) : ℚ)

/-- Shallow embedding of moving_average_filter (lines 128 to 158): the
    guard returns the untouched buffer when window_size = 0 or count = 0;
    otherwise every index below count is stored with its window average. -/
def moving_average_filter (input : ℕ → ℚ) (out : List ℚ)
    (count window_size : ℕ) : List ℚ :=
  if window_size = 0 ∨ count = 0 then out
  else tail_write (fun i => maf_out input window_size i) out 0 count

/-- State of the min_index lane search: one (value, index) candidate pair
    per lane of min_vec and min_idx_vec. -/
def MiState : Type := (ℚ × ℕ) × (ℚ × ℕ) × (ℚ × ℕ) × (ℚ × ℕ)

/-- Models one scalar update step of min_index: replace the candidate
    exactly when the new value is strictly smaller. -/
def mi_upd (acc p : ℚ × ℕ) : ℚ × ℕ := if p.1 < acc.1 then p else acc

/-- Models one iteration of the lane loop of min_index (lines 179 to 187):
    mask = vcltq_f32(data, min_vec) is a strict lane-wise less-than, and
    vbslq_f32 / vbslq_u32 select the new data and fresh indices exactly on
    the mask lanes. -/
def mi_laneStep (a : ℕ → ℚ) (st : MiState) (i : ℕ) : MiState :=
  ((if a i < (st.1).1 then (a i, i) else st.1),
   (if a (i+1) < (st.2.1).1 then (a (i+1), i+1) else st.2.1),
   (if a (i+2) < (st.2.2.1).1 then (a (i+2), i+2) else st.2.2.1),
   (if a (i+3) < (st.2.2.2).1 then (a (i+3), i+3) else st.2.2.2))

/-- Models the lane loop of min_index running g iterations from base i. -/
def mi_lanes (a : ℕ → ℚ) (st : MiState) (i : ℕ) : ℕ → MiState
  | 0 => st
  | g+1 => mi_lanes a (mi_laneStep a st i) (i+4) g

/-- Models the collapse loop of min_index (lines 194 to 199): the four
    stored lane candidates are scanned in lane order with strict less-than
    against the running scalar pair. -/
def mi_collapse (st : MiState) (acc : ℚ × ℕ) : ℚ × ℕ :=
  mi_upd (mi_upd (mi_upd (mi_upd acc st.1) st.2.1) st.2.2.1) st.2.2.2

/-- Models the scalar tail loop of min_index (lines 202 to 207). -/
def mi_tail (a : ℕ → ℚ) (acc : ℚ × ℕ) (i : ℕ) : ℕ → ℚ × ℕ
  | 0 => acc
  | n+1 => mi_tail a (mi_upd acc (a i, i)) (i+1) n

/-- Shallow embedding of min_index (lines 166 to 210): sentinel 0 for the
    empty array; otherwise the scalar pair starts at (array 0, 0), the lane
    search runs only when simd_count is at least 4 (seeded from the first
    four elements with indices 0,1,2,3 and iterating
    simd_count / 4 - 1 times from base 4), its four candidates are
    collapsed in lane order, and the scalar tail finishes from simd_count. -/
def min_index (a : ℕ → ℚ) (count : ℕ) : ℕ :=
  if count = 0 then 0
  else
    (mi_tail a
      (if 4 ≤ count - count % 4 then
        mi_collapse
          (mi_lanes a ((a 0, 0), (a 1, 1), (a 2, 2), (a 3, 3)) 4 ((count - count % 4) / 4 - 1))
          (a 0, 0)
      else (a 0, 0))
      (count - count % 4) (count - (count - count % 4))).2

theorem mi_upd_cases (acc p : ℚ × ℕ) : mi_upd acc p = acc ∨ mi_upd acc p = p := by
  unfold mi_upd
  split
  · exact Or.inr rfl
  · exact Or.inl rfl

theorem mi_upd_fst_le_left (acc p : ℚ × ℕ) : (mi_upd acc p).1 ≤ acc.1 := by
  unfold mi_upd
  split
  · exact le_of_lt (by assumption)
  · exact le_refl _

theorem mi_upd_fst_le_right (acc p : ℚ × ℕ) : (mi_upd acc p).1 ≤ p.1 := by
  unfold mi_upd
  split
  · exact le_refl _
  · exact le_of_not_lt (by assumption)

theorem mi_collapse_spec (st : MiState) (acc : ℚ × ℕ) :
    (mi_collapse st acc = acc ∨ mi_collapse st acc = st.1 ∨ mi_collapse st acc = st.2.1 ∨
      mi_collapse st acc = st.2.2.1 ∨ mi_collapse st acc = st.2.2.2) ∧
    (mi_collapse st acc).1 ≤ acc.1 ∧
    (mi_collapse st acc).1 ≤ (st.1).1 ∧ (mi_collapse st acc).1 ≤ (st.2.1).1 ∧
    (mi_collapse st acc).1 ≤ (st.2.2.1).1 ∧ (mi_collapse st acc).1 ≤ (st.2.2.2).1 := by
  have l4l := mi_upd_fst_le_left (mi_upd (mi_upd (mi_upd acc st.1) st.2.1) st.2.2.1) st.2.2.2
  have l4r := mi_upd_fst_le_right (mi_upd (mi_upd (mi_upd acc st.1) st.2.1) st.2.2.1) st.2.2.2
  have l3l := mi_upd_fst_le_left (mi_upd (mi_upd acc st.1) st.2.1) st.2.2.1
  have l3r := mi_upd_fst_le_right (mi_upd (mi_upd acc st.1) st.2.1) st.2.2.1
  have l2l := mi_upd_fst_le_left (mi_upd acc st.1) st.2.1
  have l2r := mi_upd_fst_le_right (mi_upd acc st.1) st.2.1
  have l1l := mi_upd_fst_le_left acc st.1
  have l1r := mi_upd_fst_le_right acc st.1
  constructor
  · rcases mi_upd_cases (mi_upd (mi_upd (mi_upd acc st.1) st.2.1) st.2.2.1) st.2.2.2 with h4 | h4
    · rcases mi_upd_cases (mi_upd (mi_upd acc st.1) st.2.1) st.2.2.1 with h3 | h3
      · rcases mi_upd_cases (mi_upd acc st.1) st.2.1 with h2 | h2
        · rcases mi_upd_cases acc st.1 with h1 | h1
          · exact Or.inl (by rw [mi_collapse, h4, h3, h2, h1])
          · exact Or.inr (Or.inl (by rw [mi_collapse, h4, h3, h2, h1]))
        · exact Or.inr (Or.inr (Or.inl (by rw [mi_collapse, h4, h3, h2])))
      · exact Or.inr (Or.inr (Or.inr (Or.inl (by rw [mi_collapse, h4, h3]))))
    · exact Or.inr (Or.inr (Or.inr (Or.inr (by rw [mi_collapse, h4]))))
  · exact ⟨le_trans l4l (le_trans l3l (le_trans l2l l1l)),
      le_trans l4l (le_trans l3l (le_trans l2l l1r)),
      le_trans l4l (le_trans l3l l2r), le_trans l4l l3r, l4r⟩

theorem mi_tail_spec (a : ℕ → ℚ) :
    ∀ (n : ℕ) (acc : ℚ × ℕ) (i : ℕ),
      (mi_tail a acc i n = acc ∨
        ∃ m, i ≤ m ∧ m < i + n ∧ mi_tail a acc i n = (a m, m)) ∧
      (mi_tail a acc i n).1 ≤ acc.1 ∧
      (∀ m, i ≤ m → m < i + n → (mi_tail a acc i n).1 ≤ a m) := by
  intro n
  induction n with
  | zero =>
    intro acc i
    exact ⟨Or.inl rfl, le_refl _, fun m h1 h2 => absurd h2 (by omega)⟩
  | succ n ih =>
    intro acc i
    have hstep : mi_tail a acc i (n+1) = mi_tail a (mi_upd acc (a i, i)) (i+1) n := rfl
    obtain ⟨hc, hle, hcov⟩ := ih (mi_upd acc (a i, i)) (i+1)
    refine ⟨?_, ?_, ?_⟩
    · rw [hstep]
      rcases hc with h | ⟨m, hm1, hm2, hm3⟩
      · rcases mi_upd_cases acc (a i, i) with h2 | h2
        · exact Or.inl (by rw [h, h2])
        · exact Or.inr ⟨i, le_refl _, by omega, by rw [h, h2]⟩
      · exact Or.inr ⟨m, by omega, by omega, hm3⟩
    · rw [hstep]
      exact le_trans hle (mi_upd_fst_le_left acc (a i, i))
    · intro m h1 h2
      rw [hstep]
      by_cases hmi : m = i
      · subst hmi
        exact le_trans hle (mi_upd_fst_le_right acc (a m, m))
      · exact hcov m (by omega) (by omega)

theorem mi_tail_first (a : ℕ → ℚ) :
    ∀ (n : ℕ) (acc : ℚ × ℕ) (i : ℕ),
      acc.1 = a acc.2 → (∀ m, m < i → acc.1 ≤ a m) →
      (∀ m, m < i → a m = acc.1 → acc.2 ≤ m) → acc.2 ≤ i →
      (mi_tail a acc i n).1 = a (mi_tail a acc i n).2 ∧
      (∀ m, m < i + n → (mi_tail a acc i n).1 ≤ a m) ∧
      (∀ m, m < i + n → a m = (mi_tail a acc i n).1 → (mi_tail a acc i n).2 ≤ m) ∧
      (mi_tail a acc i n).2 ≤ i + n := by
  intro n
  induction n with
  | zero =>
    intro acc i h1 h2 h3 h4
    exact ⟨h1, fun m hm => h2 m (by omega), fun m hm => h3 m (by omega), h4⟩
  | succ n ih =>
    intro acc i h1 h2 h3 h4
    have hstep : mi_tail a acc i (n+1) = mi_tail a (mi_upd acc (a i, i)) (i+1) n := rfl
    rw [hstep]
    have hA : (mi_upd acc (a i, i)).1 = a ((mi_upd acc (a i, i)).2) := by
      unfold mi_upd
      split
      · rfl
      · exact h1
    have hB : ∀ m, m < i + 1 → (mi_upd acc (a i, i)).1 ≤ a m := by
      intro m hm
      by_cases hlt : a i < acc.1
      · rw [show mi_upd acc (a i, i) = (a i, i) from if_pos hlt]
        rcases Nat.lt_or_ge m i with hm2 | hm2
        · exact le_of_lt (lt_of_lt_of_le hlt (h2 m hm2))
        · rw [show m = i from by omega]
      · rw [show mi_upd acc (a i, i) = acc from if_neg hlt]
        rcases Nat.lt_or_ge m i with hm2 | hm2
        · exact h2 m hm2
        · rw [show m = i from by omega]
          exact le_of_not_lt hlt
    have hC : ∀ m, m < i + 1 → a m = (mi_upd acc (a i, i)).1 → (mi_upd acc (a i, i)).2 ≤ m := by
      intro m hm heq
      by_cases hlt : a i < acc.1
      · rw [show mi_upd acc (a i, i) = (a i, i) from if_pos hlt] at heq ⊢
        rcases Nat.lt_or_ge m i with hm2 | hm2
        · exfalso
          have hge := h2 m hm2
          rw [heq] at hge
          exact absurd hlt (not_lt.mpr hge)
        · omega
      · rw [show mi_upd acc (a i, i) = acc from if_neg hlt] at heq ⊢
        rcases Nat.lt_or_ge m i with hm2 | hm2
        · exact h3 m hm2 heq
        · omega
    have hD : (mi_upd acc (a i, i)).2 ≤ i + 1 := by
      by_cases hlt : a i < acc.1
      · rw [show mi_upd acc (a i, i) = (a i, i) from if_pos hlt]
        exact Nat.le_succ i
      · rw [show mi_upd acc (a i, i) = acc from if_neg hlt]
        omega
    obtain ⟨k1, k2, k3, k4⟩ := ih (mi_upd acc (a i, i)) (i+1) hA hB hC hD
    exact ⟨k1, fun m hm => k2 m (by omega), fun m hm => k3 m (by omega), by omega⟩

/-- Invariant of the lane state after the search has visited all indices
    below i: each candidate stores its own array value, carries an index
    below i, and is a lower bound on every visited index of its lane. -/
def MiInv (a : ℕ → ℚ) (st : MiState) (i : ℕ) : Prop :=
  (st.1).1 = a (st.1).2 ∧ (st.2.1).1 = a (st.2.1).2 ∧
  (st.2.2.1).1 = a (st.2.2.1).2 ∧ (st.2.2.2).1 = a (st.2.2.2).2 ∧
  (st.1).2 < i ∧ (st.2.1).2 < i ∧ (st.2.2.1).2 < i ∧ (st.2.2.2).2 < i ∧
  (∀ m, m < i → m % 4 = 0 → (st.1).1 ≤ a m) ∧
  (∀ m, m < i → m % 4 = 1 → (st.2.1).1 ≤ a m) ∧
  (∀ m, m < i → m % 4 = 2 → (st.2.2.1).1 ≤ a m) ∧
  (∀ m, m < i → m % 4 = 3 → (st.2.2.2).1 ≤ a m)

theorem mi_upd_lane (a : ℕ → ℚ) (p : ℚ × ℕ) (k i : ℕ) (hk : k < 4) (hi : i % 4 = 0)
    (hself : p.1 = a p.2) (hbnd : p.2 < i)
    (hcov : ∀ m, m < i → m % 4 = k → p.1 ≤ a m) :
    (if a (i+k) < p.1 then (a (i+k), i+k) else p).1 =
        a ((if a (i+k) < p.1 then (a (i+k), i+k) else p).2) ∧
      (if a (i+k) < p.1 then (a (i+k), i+k) else p).2 < i + 4 ∧
      ∀ m, m < i + 4 → m % 4 = k → (if a (i+k) < p.1 then (a (i+k), i+k) else p).1 ≤ a m := by
  by_cases hlt : a (i+k) < p.1
  · rw [if_pos hlt]
    refine ⟨rfl, by omega, ?_⟩
    intro m hm hmk
    rcases Nat.lt_or_ge m i with hm2 | hm2
    · exact le_of_lt (lt_of_lt_of_le hlt (hcov m hm2 hmk))
    · rw [show m = i + k from by omega]
  · rw [if_neg hlt]
    refine ⟨hself, by omega, ?_⟩
    intro m hm hmk
    rcases Nat.lt_or_ge m i with hm2 | hm2
    · exact hcov m hm2 hmk
    · rw [show m = i + k from by omega]
      exact le_of_not_lt hlt

theorem mi_laneStep_inv (a : ℕ → ℚ) (st : MiState) (i : ℕ) (hi : i % 4 = 0)
    (h : MiInv a st i) : MiInv a (mi_laneStep a st i) (i + 4) := by
  obtain ⟨s1, s2, s3, s4, b1, b2, b3, b4, c1, c2, c3, c4⟩ := h
  have k0 := mi_upd_lane a st.1 0 i (by omega) hi s1 b1 (fun m hm hmk => c1 m hm hmk)
  have k1 := mi_upd_lane a st.2.1 1 i (by omega) hi s2 b2 (fun m hm hmk => c2 m hm hmk)
  have k2 := mi_upd_lane a st.2.2.1 2 i (by omega) hi s3 b3 (fun m hm hmk => c3 m hm hmk)
  have k3 := mi_upd_lane a st.2.2.2 3 i (by omega) hi s4 b4 (fun m hm hmk => c4 m hm hmk)
  exact ⟨k0.1, k1.1, k2.1, k3.1, k0.2.1, k1.2.1, k2.2.1, k3.2.1,
    k0.2.2, k1.2.2, k2.2.2, k3.2.2⟩

theorem mi_lanes_inv (a : ℕ → ℚ) :
    ∀ (g : ℕ) (st : MiState) (i : ℕ), i % 4 = 0 → MiInv a st i →
      MiInv a (mi_lanes a st i g) (i + 4 * g) := by
  intro g
  induction g with
  | zero =>
    intro st i _ h
    exact h
  | succ g ih =>
    intro st i hi h
    have hstep : mi_lanes a st i (g+1) = mi_lanes a (mi_laneStep a st i) (i+4) g := rfl
    rw [hstep, show i + 4 * (g+1) = (i+4) + 4 * g from by omega]
    exact ih (mi_laneStep a st i) (i+4) (by omega) (mi_laneStep_inv a st i hi h)

theorem mi_main (a : ℕ → ℚ) (count : ℕ) (hpos : 0 < count) :
    min_index a count < count ∧ ∀ j, j < count → a (min_index a count) ≤ a j := by
  have hne : count ≠ 0 := by omega
  unfold min_index
  rw [if_neg hne]
  by_cases hs : 4 ≤ count - count % 4
  · rw [if_pos hs]
    have hseed : MiInv a ((a 0, 0), (a 1, 1), (a 2, 2), (a 3, 3)) 4 := by
      refine ⟨rfl, rfl, rfl, rfl, (show (0:ℕ) < 4 by norm_num), (show (1:ℕ) < 4 by norm_num),
        (show (2:ℕ) < 4 by norm_num), (show (3:ℕ) < 4 by norm_num), ?_, ?_, ?_, ?_⟩
      · intro m hm hmk
        rw [show m = 0 from by omega]
      · intro m hm hmk
        rw [show m = 1 from by omega]
      · intro m hm hmk
        rw [show m = 2 from by omega]
      · intro m hm hmk
        rw [show m = 3 from by omega]
    have hlan := mi_lanes_inv a ((count - count % 4) / 4 - 1)
      ((a 0, 0), (a 1, 1), (a 2, 2), (a 3, 3)) 4 (by omega) hseed
    rw [show 4 + 4 * ((count - count % 4) / 4 - 1) = count - count % 4 from by omega] at hlan
    obtain ⟨s1, s2, s3, s4, b1, b2, b3, b4, c1, c2, c3, c4⟩ := hlan
    obtain ⟨hcase, hacc, hl1, hl2, hl3, hl4⟩ := mi_collapse_spec
      (mi_lanes a ((a 0, 0), (a 1, 1), (a 2, 2), (a 3, 3)) 4 ((count - count % 4) / 4 - 1))
      (a 0, 0)
    have hacc_self : (mi_collapse
        (mi_lanes a ((a 0, 0), (a 1, 1), (a 2, 2), (a 3, 3)) 4 ((count - count % 4) / 4 - 1))
        (a 0, 0)).1 =
        a ((mi_collapse
          (mi_lanes a ((a 0, 0), (a 1, 1), (a 2, 2), (a 3, 3)) 4 ((count - count % 4) / 4 - 1))
          (a 0, 0)).2) := by
      rcases hcase with h | h | h | h | h
      · rw [h]
      · rw [h]
        exact s1
      · rw [h]
        exact s2
      · rw [h]
        exact s3
      · rw [h]
        exact s4
    have hacc_bnd : (mi_collapse
        (mi_lanes a ((a 0, 0), (a 1, 1), (a 2, 2), (a 3, 3)) 4 ((count - count % 4) / 4 - 1))
        (a 0, 0)).2 < count := by
      rcases hcase with h | h | h | h | h
      · rw [h]
        exact hpos
      · rw [h]
        exact lt_of_lt_of_le b1 (Nat.sub_le count (count % 4))
      · rw [h]
        exact lt_of_lt_of_le b2 (Nat.sub_le count (count % 4))
      · rw [h]
        exact lt_of_lt_of_le b3 (Nat.sub_le count (count % 4))
      · rw [h]
        exact lt_of_lt_of_le b4 (Nat.sub_le count (count % 4))
    have hacc_cov : ∀ m, m < count - count % 4 →
        (mi_collapse
          (mi_lanes a ((a 0, 0), (a 1, 1), (a 2, 2), (a 3, 3)) 4 ((count - count % 4) / 4 - 1))
          (a 0, 0)).1 ≤ a m := by
      intro m hm
      have h4 : m % 4 = 0 ∨ m % 4 = 1 ∨ m % 4 = 2 ∨ m % 4 = 3 := by omega
      rcases h4 with h4 | h4 | h4 | h4
      · exact le_trans hl1 (c1 m hm h4)
      · exact le_trans hl2 (c2 m hm h4)
      · exact le_trans hl3 (c3 m hm h4)
      · exact le_trans hl4 (c4 m hm h4)
    obtain ⟨tc, tle, tcov⟩ := mi_tail_spec a (count - (count - count % 4))
      (mi_collapse
        (mi_lanes a ((a 0, 0), (a 1, 1), (a 2, 2), (a 3, 3)) 4 ((count - count % 4) / 4 - 1))
        (a 0, 0))
      (count - count % 4)
    have hres_self : (mi_tail a
        (mi_collapse
          (mi_lanes a ((a 0, 0), (a 1, 1), (a 2, 2), (a 3, 3)) 4 ((count - count % 4) / 4 - 1))
          (a 0, 0))
        (count - count % 4) (count - (count - count % 4))).1 =
        a ((mi_tail a
          (mi_collapse
            (mi_lanes a ((a 0, 0), (a 1, 1), (a 2, 2), (a 3, 3)) 4 ((count - count % 4) / 4 - 1))
            (a 0, 0))
          (count - count % 4) (count - (count - count % 4))).2) := by
      rcases tc with h | ⟨m, hm1, hm2, hm3⟩
      · rw [h]
        exact hacc_self
      · rw [hm3]
    constructor
    · rcases tc with h | ⟨m, hm1, hm2, hm3⟩
      · rw [h]
        exact hacc_bnd
      · rw [hm3]
        show m < count
        omega
    · intro j hj
      rw [← hres_self]
      rcases Nat.lt_or_ge j (count - count % 4) with hj2 | hj2
      · exact le_trans tle (hacc_cov j hj2)
      · exact tcov j hj2 (by omega)
  · rw [if_neg hs]
    have hsimd0 : count - count % 4 = 0 := by omega
    rw [hsimd0]
    obtain ⟨tc, tle, tcov⟩ := mi_tail_spec a (count - 0) (a 0, 0) 0
    have hres_self : (mi_tail a (a 0, 0) 0 (count - 0)).1 =
        a ((mi_tail a (a 0, 0) 0 (count - 0)).2) := by
      rcases tc with h | ⟨m, hm1, hm2, hm3⟩
      · rw [h]
      · rw [hm3]
    constructor
    · rcases tc with h | ⟨m, hm1, hm2, hm3⟩
      · rw [h]
        exact hpos
      · rw [hm3]
        show m < count
        omega
    · intro j hj
      rw [← hres_self]
      exact tcov j (by omega) (by omega)

/-- C7: for every non-empty array (NaN-free by construction in the exact
    model), the index returned by min_index attains the minimum:
    a (min_index a count) is at most a j for every index j below count. -/
theorem min_index_attains (a : ℕ → ℚ) (count : ℕ) (hpos : 0 < count) :
    ∀ j, j < count → a (min_index a count) ≤ a j :=
  (mi_main a count hpos).2

/-- Witness for C7 at the array [3,1,4,1,5], checked against index 0. -/
theorem min_index_attains_witness :
    ofList [3,1,4,1,5] (min_index (ofList [3,1,4,1,5]) 5) ≤ ofList [3,1,4,1,5] 0 :=
  min_index_attains (ofList [3,1,4,1,5]) 5 (by norm_num) 0 (by norm_num)

/-- C9: for every array with positive count, min_index returns an index
    strictly below count, whatever the stored values are. -/
theorem min_index_lt_count (a : ℕ → ℚ) (count : ℕ) (hpos : 0 < count) :
    min_index a count < count :=
  (mi_main a count hpos).1

/-- Witness for C9 at a constant array of six elements. -/
theorem min_index_lt_count_witness : min_index (fun _ => (2 : ℚ)) 6 < 6 :=
  min_index_lt_count (fun _ => (2 : ℚ)) 6 (by norm_num)

theorem mi_small (a : ℕ → ℚ) (count : ℕ) (h1 : 0 < count) (h2 : count ≤ 7) :
    min_index a count = (mi_tail a (a 0, 0) 0 count).2 := by
  interval_cases count <;> rfl

/-- C2 (amended): when the whole array fits into the seed lane group plus
    the scalar tail (count at most 7), min_index returns the smallest index
    attaining the minimum; for larger arrays the cross-lane collapse
    prefers the lowest lane position among equal lane minima, so the
    returned index attains the minimum but need not be the smallest
    index that does. -/
theorem min_index_small_tiebreak (a : ℕ → ℚ) (count : ℕ) (h1 : 0 < count) (h2 : count ≤ 7) :
    (∀ j, j < count → a (min_index a count) ≤ a j) ∧
    (∀ j, j < count → a j = a (min_index a count) → min_index a count ≤ j) := by
  have hred := mi_small a count h1 h2
  obtain ⟨k1, k2, k3, k4⟩ := mi_tail_first a count (a 0, 0) 0 rfl
    (fun m hm => absurd hm (by omega)) (fun m hm => absurd hm (by omega)) (le_refl 0)
  constructor
  · intro j hj
    rw [hred, ← k1]
    exact k2 j (by omega)
  · intro j hj heq
    rw [hred]
    have heq2 : a j = (mi_tail a (a 0, 0) 0 count).1 := by
      rw [k1, ← hred]
      exact heq
    exact k3 j (by omega) heq2

/-- Witness for C2 at the array [2,1,1] where the minimum 1 first occurs at
    index 1. -/
theorem min_index_small_tiebreak_witness :
    min_index (ofList [2,1,1]) 3 ≤ 1 :=
  (min_index_small_tiebreak (ofList [2,1,1]) 3 (by norm_num) (by norm_num)).2 1
    (by norm_num)
    (by
      norm_num [min_index, mi_tail, mi_upd, mi_collapse, mi_lanes, mi_laneStep, ofList]
      decide)

/-- Counterexample array for C2: the minimum 0 occurs at indices 1 and 4. -/
def cexArr : ℕ → ℚ := ofList [5, 0, 5, 5, 0, 5, 5, 5]

/-- C2 counterexample: on [5,0,5,5,0,5,5,5] with count 8 the minimum 0
    occurs first at index 1, yet min_index returns 4, because the collapse
    scans the lane candidates in lane order with strict less-than and lane
    0 holds (0, 4) while lane 1 holds (0, 1): the smallest index does not
    win across different lanes. -/
theorem min_index_tiebreak_cex :
    min_index cexArr 8 = 4 ∧ cexArr 1 = 0 ∧ cexArr 4 = 0 ∧
    cexArr 0 = 5 ∧ cexArr 2 = 5 ∧ cexArr 3 = 5 ∧
    cexArr 5 = 5 ∧ cexArr 6 = 5 ∧ cexArr 7 = 5 := by
  refine ⟨?_, ?_, ?_, ?_, ?_, ?_, ?_, ?_, ?_⟩ <;>
    norm_num [min_index, mi_tail, mi_upd, mi_collapse, mi_lanes, mi_laneStep, cexArr, ofList]

/-- Value domain with the IEEE 754 special values: finite values (exact,
    rounding not modelled), the two signed infinities and a NaN value.
    Signed zero is not distinguished. -/
inductive FV : Type
  | fin : ℚ → FV
  | pinf : FV
  | ninf : FV
  | nan : FV
deriving DecidableEq

/-- IEEE addition on the extended values: NaN propagates, and the sum of
    opposite infinities is NaN. -/
def FV.add : FV → FV → FV
  | FV.nan, _ => FV.nan
  | _, FV.nan => FV.nan
  | FV.pinf, FV.ninf => FV.nan
  | FV.ninf, FV.pinf => FV.nan
  | FV.pinf, _ => FV.pinf
  | _, FV.pinf => FV.pinf
  | FV.ninf, _ => FV.ninf
  | _, FV.ninf => FV.ninf
  | FV.fin a, FV.fin b => FV.fin (a + b)

/-- IEEE multiplication on the extended values: NaN propagates, zero times
    an infinity is NaN, and signs follow the usual rule. -/
def FV.mul : FV → FV → FV
  | FV.nan, _ => FV.nan
  | _, FV.nan => FV.nan
  | FV.fin a, FV.fin b => FV.fin (a * b)
  | FV.fin a, FV.pinf => if 0 < a then FV.pinf else if a < 0 then FV.ninf else FV.nan
  | FV.pinf, FV.fin a => if 0 < a then FV.pinf else if a < 0 then FV.ninf else FV.nan
  | FV.fin a, FV.ninf => if 0 < a then FV.ninf else if a < 0 then FV.pinf else FV.nan
  | FV.ninf, FV.fin a => if 0 < a then FV.ninf else if a < 0 then FV.pinf else FV.nan
  | FV.pinf, FV.pinf => FV.pinf
  | FV.pinf, FV.ninf => FV.ninf
  | FV.ninf, FV.pinf => FV.ninf
  | FV.ninf, FV.ninf => FV.pinf

/-- IEEE strict less-than on the extended values: every comparison with a
    NaN operand is false. -/
def FV.lt : FV → FV → Bool
  | FV.nan, _ => false
  | _, FV.nan => false
  | FV.fin a, FV.fin b => decide (a < b)
  | FV.fin _, FV.pinf => true
  | FV.fin _, FV.ninf => false
  | FV.pinf, _ => false
  | FV.ninf, FV.ninf => false
  | FV.ninf, _ => true

/-- IEEE division on the extended values: NaN propagates, infinity over
    infinity and zero over zero are NaN, finite over infinity is zero
    (signed zero not distinguished). -/
def FV.div : FV → FV → FV
  | FV.nan, _ => FV.nan
  | _, FV.nan => FV.nan
  | FV.pinf, FV.pinf => FV.nan
  | FV.pinf, FV.ninf => FV.nan
  | FV.ninf, FV.pinf => FV.nan
  | FV.ninf, FV.ninf => FV.nan
  | FV.pinf, FV.fin b => if b < 0 then FV.ninf else FV.pinf
  | FV.ninf, FV.fin b => if b < 0 then FV.pinf else FV.ninf
  | FV.fin _, FV.pinf => FV.fin 0
  | FV.fin _, FV.ninf => FV.fin 0
  | FV.fin a, FV.fin b =>
    if b = 0 then (if a = 0 then FV.nan else if 0 < a then FV.pinf else FV.ninf)
    else FV.fin (a / b)

/-- Lane accumulator of weighted_average over the extended value domain. -/
def lanes_accF (t : ℕ → FV) (s : FV × FV × FV × FV) (i : ℕ) : ℕ → FV × FV × FV × FV
  | 0 => s
  | g+1 => lanes_accF t
      (FV.add s.1 (t i), FV.add s.2.1 (t (i+1)),
        FV.add s.2.2.1 (t (i+2)), FV.add s.2.2.2 (t (i+3))) (i+4) g

/-- Scalar tail of weighted_average over the extended value domain. -/
def wavg_tailF (values weights : ℕ → FV) (acc : FV × FV) (i : ℕ) : ℕ → FV × FV
  | 0 => acc
  | n+1 => wavg_tailF values weights
      (FV.add acc.1 (FV.mul (values i) (weights i)), FV.add acc.2 (weights i)) (i+1) n

/-- Accumulator pair of weighted_average over the extended value domain,
    mirroring wavg_sums lane by lane. -/
def wavg_sumsF (values weights : ℕ → FV) (count : ℕ) : FV × FV :=
  wavg_tailF values weights
    (FV.add
      (FV.add
        (lanes_accF (fun m => FV.mul (values m) (weights m))
          (FV.fin 0, FV.fin 0, FV.fin 0, FV.fin 0) 0 ((count - count % 4) / 4)).1
        (lanes_accF (fun m => FV.mul (values m) (weights m))
          (FV.fin 0, FV.fin 0, FV.fin 0, FV.fin 0) 0 ((count - count % 4) / 4)).2.2.1)
      (FV.add
        (lanes_accF (fun m => FV.mul (values m) (weights m))
          (FV.fin 0, FV.fin 0, FV.fin 0, FV.fin 0) 0 ((count - count % 4) / 4)).2.1
        (lanes_accF (fun m => FV.mul (values m) (weights m))
          (FV.fin 0, FV.fin 0, FV.fin 0, FV.fin 0) 0 ((count - count % 4) / 4)).2.2.2),
     FV.add
      (FV.add
        (lanes_accF weights (FV.fin 0, FV.fin 0, FV.fin 0, FV.fin 0) 0
          ((count - count % 4) / 4)).1
        (lanes_accF weights (FV.fin 0, FV.fin 0, FV.fin 0, FV.fin 0) 0
          ((count - count % 4) / 4)).2.2.1)
      (FV.add
        (lanes_accF weights (FV.fin 0, FV.fin 0, FV.fin 0, FV.fin 0) 0
          ((count - count % 4) / 4)).2.1
        (lanes_accF weights (FV.fin 0, FV.fin 0, FV.fin 0, FV.fin 0) 0
          ((count - count % 4) / 4)).2.2.2))
    (count - count % 4) (count - (count - count % 4))

/-- Shallow embedding of weighted_average over the extended value domain,
    with the source guard weight_sum greater than 0 and fallback 0. -/
def weighted_averageF (values weights : ℕ → FV) (count : ℕ) : FV :=
  if FV.lt (FV.fin 0) (wavg_sumsF values weights count).2 then
    FV.div (wavg_sumsF values weights count).1 (wavg_sumsF values weights count).2
  else FV.fin 0

/-- C10: whenever the accumulated weight total of weighted_average is NaN
    (for example a NaN weight, or weights holding both infinities), the
    guard weight_sum greater than 0 is false for NaN, so the function
    returns the fallback 0 - the zero fallback covers NaN totals. -/
theorem weighted_averageF_nan (values weights : ℕ → FV) (count : ℕ)
    (h : (wavg_sumsF values weights count).2 = FV.nan) :
    weighted_averageF values weights count = FV.fin 0 := by
  unfold weighted_averageF
  rw [h]
  rfl

/-- Witness for C10: a NaN weight at count 1, and oppositely signed
    infinite weights at count 2, both give a NaN weight total and result 0. -/
theorem weighted_averageF_nan_witness :
    weighted_averageF (fun _ => FV.fin 1) (fun _ => FV.nan) 1 = FV.fin 0 ∧
    weighted_averageF (fun _ => FV.fin 1)
      (fun i => if i = 0 then FV.pinf else FV.ninf) 2 = FV.fin 0 :=
  ⟨weighted_averageF_nan (fun _ => FV.fin 1) (fun _ => FV.nan) 1 (by rfl),
   weighted_averageF_nan (fun _ => FV.fin 1)
     (fun i => if i = 0 then FV.pinf else FV.ninf) 2 (by rfl)⟩

/-- C4: every kernel called with count 0 stores no output element (the
    returned buffer is the untouched input buffer) and returns its
    documented default: 0 for weighted_average and cross_correlation, the
    sentinel index 0 for min_index, and a pure no-op for cumulative_sum,
    speed, moving_average_filter, exp_moving_average and
    threshold_detection.  No input element is read: every loop bound and
    the lane counts reduce to 0. -/
theorem kernels_empty (v w a input positions_prev positions_curr sensor_data : ℕ → ℚ)
    (out : List ℚ) (outN : List ℕ) (time_delta alpha threshold : ℚ) (window_size : ℕ) :
    weighted_average v w 0 = 0 ∧
    cross_correlation v w 0 = 0 ∧
    min_index a 0 = 0 ∧
    cumulative_sum input 0 out = out ∧
    speed positions_prev positions_curr out 0 time_delta = out ∧
    moving_average_filter input out 0 window_size = out ∧
    exp_moving_average input out 0 alpha = out ∧
    threshold_detection sensor_data outN 0 threshold = outN := by
  refine ⟨?_, ?_, rfl, rfl, rfl, ?_, rfl, rfl⟩
  · unfold weighted_average
    rw [wavg_sums_eq]
    simp
  · norm_num [cross_correlation, lanes_acc, scalar_tail_acc]
  · unfold moving_average_filter
    split
    · rfl
    · next hcond => exact absurd (Or.inr rfl) hcond

/-- Witness for C4 instantiating two of the kernels at count 0. -/
theorem kernels_empty_witness :
    weighted_average (fun _ => 0) (fun _ => 0) 0 = 0 ∧ min_index (fun _ => 0) 0 = 0 :=
  ⟨(kernels_empty (fun _ => 0) (fun _ => 0) (fun _ => 0) (fun _ => 0) (fun _ => 0)
      (fun _ => 0) (fun _ => 0) [] [] 0 0 0 0).1,
   (kernels_empty (fun _ => 0) (fun _ => 0) (fun _ => 0) (fun _ => 0) (fun _ => 0)
      (fun _ => 0) (fun _ => 0) [] [] 0 0 0 0).2.2.1⟩
